import Mathlib

/-!
Verification development for the image2Reg preprocessing and dataset pipeline.

The definitions below are shallow embeddings of the Python code in
`src/preprocessing/image_preprocessing.py` and `src/data/datasets.py`.
Machine scalars are modelled as `Nat`; the real-valued shape descriptors
(eccentricity, solidity) and the normalization arithmetic are modelled over `ℚ`.
Fallible operations return `Option`/`Except`.
-/

namespace Image2Reg

/-! ### Region filter (`ImageDatasetPreprocessor.segment_all_images_given_outlines`)

A segmented candidate region carries the shape descriptors computed by
`skimage.measure.regionprops`: pixel area, the bounding-box shape
`(width, length) = region.image.shape`, eccentricity and solidity. -/

structure Region where
  area : ℕ
  width : ℕ
  length : ℕ
  eccentricity : ℚ
  solidity : ℚ
deriving Repr, DecidableEq

/-- The optional thresholds passed to `segment_all_images_given_outlines`
(`None` in Python is `Option.none` here). -/
structure SegmentFilterConfig where
  max_area : Option ℕ
  max_bbarea : Option ℕ
  max_eccentricity : Option ℚ
  min_solidity : Option ℚ
deriving Repr, DecidableEq

/-- The acceptance condition of the `if` statement guarding the crop write,
`image_preprocessing.py` lines 172-180:
`(max_area is None or region.area < max_area) and (max_eccentricity is None or
region.eccentricity < max_eccentricity) and (max_bbarea is None or
width * length < max_bbarea) and (min_solidity is None or region.solidity > min_solidity)`. -/
def acceptRegion (cfg : SegmentFilterConfig) (r : Region) : Bool :=
  (match cfg.max_area with
    | none => true
    | some m => decide (r.area < m)) &&
  (match cfg.max_eccentricity with
    | none => true
    | some m => decide (r.eccentricity < m)) &&
  (match cfg.max_bbarea with
    | none => true
    | some m => decide (r.width * r.length < m)) &&
  (match cfg.min_solidity with
    | none => true
    | some m => decide (r.solidity > m))

/-- C1: a region is accepted iff every set threshold passes with a strict
inequality; unset thresholds always pass; a region whose value equals a set
threshold is rejected. -/
theorem acceptRegion_iff_strict (cfg : SegmentFilterConfig) (r : Region) :
    (acceptRegion cfg r = true ↔
      (∀ m, cfg.max_area = some m → r.area < m) ∧
      (∀ m, cfg.max_eccentricity = some m → r.eccentricity < m) ∧
      (∀ m, cfg.max_bbarea = some m → r.width * r.length < m) ∧
      (∀ m, cfg.min_solidity = some m → r.solidity > m)) ∧
    (cfg.max_area = some r.area → acceptRegion cfg r = false) ∧
    (cfg.max_eccentricity = some r.eccentricity → acceptRegion cfg r = false) ∧
    (cfg.max_bbarea = some (r.width * r.length) → acceptRegion cfg r = false) ∧
    (cfg.min_solidity = some r.solidity → acceptRegion cfg r = false) := by
  obtain ⟨a, b, e, s⟩ := cfg
  constructor
  · simp only [acceptRegion, Bool.and_eq_true, decide_eq_true_eq]
    cases a <;> cases b <;> cases e <;> cases s <;>
      simp_all [Option.some.injEq, forall_eq, and_assoc]
  · refine ⟨?_, ?_, ?_, ?_⟩ <;> intro h <;> subst h <;>
      simp [acceptRegion, le_refl]

/-- Witness for C1: with `max_area = 50` a region of area exactly 50 is
rejected (boundary-equal case), via `acceptRegion_iff_strict`. -/
theorem acceptRegion_iff_strict_witness :
    acceptRegion ⟨some 50, none, none, none⟩ ⟨50, 7, 8, 1/2, 3/4⟩ = false :=
  (acceptRegion_iff_strict ⟨some 50, none, none, none⟩ ⟨50, 7, 8, 1/2, 3/4⟩).2.1 rfl

/-! ### Pad size discovery (`segment_all_images_given_outlines`)

The segmentation loop iterates over the metadata rows (one image each), and
within each image over its candidate regions; `max_width`/`max_length` start
at 0 and are updated (lines 181-182) only inside the acceptance branch.
At the end (line 252) `self.pad_size = max_width + 1, max_length + 1`. -/

structure SegImage where
  regions : List Region
deriving Repr, DecidableEq

/-- One iteration of the inner region loop, restricted to the running-maximum
state: accepted regions update the maxima, rejected ones leave them unchanged. -/
def segmentStep (cfg : SegmentFilterConfig) (acc : ℕ × ℕ) (r : Region) : ℕ × ℕ :=
  if acceptRegion cfg r then (max acc.1 r.width, max acc.2 r.length) else acc

/-- The `(max_width, max_length)` pair after the full segmentation loop. -/
def segmentRunMax (cfg : SegmentFilterConfig) (images : List SegImage) : ℕ × ℕ :=
  images.foldl (fun acc img => img.regions.foldl (segmentStep cfg) acc) (0, 0)

/-- `self.pad_size = max_width + 1, max_length + 1` (line 252). -/
def padSize (cfg : SegmentFilterConfig) (images : List SegImage) : ℕ × ℕ :=
  ((segmentRunMax cfg images).1 + 1, (segmentRunMax cfg images).2 + 1)

/-- The regions of a run that pass the region filter, in loop order. -/
def acceptedRegions (cfg : SegmentFilterConfig) (images : List SegImage) : List Region :=
  (images.flatMap (fun img => img.regions)).filter (acceptRegion cfg)

/-- Maximum width over a list of regions (0 for the empty list). -/
def maxWidth (rs : List Region) : ℕ := rs.foldr (fun r m => max r.width m) 0

/-- Maximum length over a list of regions (0 for the empty list). -/
def maxLength (rs : List Region) : ℕ := rs.foldr (fun r m => max r.length m) 0

theorem maxWidth_append (xs ys : List Region) :
    maxWidth (xs ++ ys) = max (maxWidth xs) (maxWidth ys) := by
  induction xs with
  | nil => simp [maxWidth]
  | cons r xs ih => simp [maxWidth, List.foldr_cons, Nat.max_assoc] at ih ⊢; rw [ih]

theorem maxLength_append (xs ys : List Region) :
    maxLength (xs ++ ys) = max (maxLength xs) (maxLength ys) := by
  induction xs with
  | nil => simp [maxLength]
  | cons r xs ih => simp [maxLength, List.foldr_cons, Nat.max_assoc] at ih ⊢; rw [ih]

theorem foldl_segmentStep (cfg : SegmentFilterConfig) (rs : List Region) (acc : ℕ × ℕ) :
    rs.foldl (segmentStep cfg) acc =
      (max acc.1 (maxWidth (rs.filter (acceptRegion cfg))),
       max acc.2 (maxLength (rs.filter (acceptRegion cfg)))) := by
  induction rs generalizing acc with
  | nil => simp [maxWidth, maxLength]
  | cons r rs ih =>
    by_cases h : acceptRegion cfg r
    · rw [List.foldl_cons, segmentStep, if_pos h, ih, List.filter_cons_of_pos h]
      simp [maxWidth, maxLength, Nat.max_assoc]
    · rw [List.foldl_cons, segmentStep, if_neg h, ih,
        List.filter_cons_of_neg (by simpa using h)]

theorem segmentRunMax_eq (cfg : SegmentFilterConfig) (images : List SegImage) :
    segmentRunMax cfg images =
      (maxWidth (acceptedRegions cfg images), maxLength (acceptedRegions cfg images)) := by
  suffices h : ∀ acc : ℕ × ℕ,
      images.foldl (fun acc img => img.regions.foldl (segmentStep cfg) acc) acc =
        (max acc.1 (maxWidth (acceptedRegions cfg images)),
         max acc.2 (maxLength (acceptedRegions cfg images))) by
    simpa [segmentRunMax] using h (0, 0)
  induction images with
  | nil => intro acc; simp [acceptedRegions, maxWidth, maxLength]
  | cons img images ih =>
    intro acc
    rw [List.foldl_cons, foldl_segmentStep, ih]
    have hacc : acceptedRegions cfg (img :: images) =
        img.regions.filter (acceptRegion cfg) ++ acceptedRegions cfg images := by
      simp [acceptedRegions]
    rw [hacc, maxWidth_append, maxLength_append]
    simp [Nat.max_assoc]

theorem mem_le_maxWidth {r : Region} {rs : List Region} (h : r ∈ rs) :
    r.width ≤ maxWidth rs := by
  induction rs with
  | nil => cases h
  | cons x xs ih =>
    rcases List.mem_cons.mp h with h | h
    · subst h; exact Nat.le_max_left _ _
    · exact le_trans (ih h) (Nat.le_max_right _ _)

theorem mem_le_maxLength {r : Region} {rs : List Region} (h : r ∈ rs) :
    r.length ≤ maxLength rs := by
  induction rs with
  | nil => cases h
  | cons x xs ih =>
    rcases List.mem_cons.mp h with h | h
    · subst h; exact Nat.le_max_left _ _
    · exact le_trans (ih h) (Nat.le_max_right _ _)

/-- C2: the pad size of a run equals (max accepted width + 1, max accepted
length + 1), the maxima ranging over exactly the accepted regions, and hence
every accepted region is strictly smaller than the pad size componentwise. -/
theorem padSize_eq_max_accepted (cfg : SegmentFilterConfig) (images : List SegImage) :
    padSize cfg images =
      (maxWidth (acceptedRegions cfg images) + 1,
       maxLength (acceptedRegions cfg images) + 1) ∧
    ∀ r ∈ acceptedRegions cfg images,
      r.width < (padSize cfg images).1 ∧ r.length < (padSize cfg images).2 := by
  have hrun := segmentRunMax_eq cfg images
  constructor
  · simp [padSize, hrun]
  · intro r hr
    constructor
    · simp only [padSize, hrun]
      exact Nat.lt_succ_of_le (mem_le_maxWidth hr)
    · simp only [padSize, hrun]
      exact Nat.lt_succ_of_le (mem_le_maxLength hr)

/-- Witness for C2: in a run with one image holding an accepted region of
bounding box 3 × 4 (and a rejected one of area 10 = max_area), the accepted
region is strictly below the computed pad size. -/
theorem padSize_eq_max_accepted_witness :
    (⟨5, 3, 4, 0, 1⟩ : Region) ∈
      acceptedRegions ⟨some 10, none, none, none⟩ [⟨[⟨5, 3, 4, 0, 1⟩, ⟨10, 9, 9, 0, 1⟩]⟩] ∧
    (⟨5, 3, 4, 0, 1⟩ : Region).width <
      (padSize ⟨some 10, none, none, none⟩ [⟨[⟨5, 3, 4, 0, 1⟩, ⟨10, 9, 9, 0, 1⟩]⟩]).1 :=
  ⟨by decide,
   ((padSize_eq_max_accepted ⟨some 10, none, none, none⟩
      [⟨[⟨5, 3, 4, 0, 1⟩, ⟨10, 9, 9, 0, 1⟩]⟩]).2 ⟨5, 3, 4, 0, 1⟩ (by decide)).1⟩

/-! ### Illumination filenames (`ImageDatasetPreprocessor.add_image_illumination_col`)

For each raw filename the Python code runs `idx = orig.index(".")` (raising
`ValueError` when there is no `.`) and builds `orig[:idx] + posfix + orig[idx:]`.
Filenames are modelled as `List Char`; the failing `index` call is `Option`. -/

/-- `orig.index(".")`: the index of the first `.`, `none` (a `ValueError` in
Python) when there is none. -/
def dotIndex : List Char → Option ℕ
  | [] => none
  | c :: rest => if c = '.' then some 0 else (dotIndex rest).map (fun k => k + 1)

/-- `orig[:idx] + posfix + orig[idx:]` with `idx = orig.index(".")`;
`none` models the `ValueError` of `str.index` when no `.` occurs. -/
def insertPosfix (posfix : List Char) (orig : List Char) : Option (List Char) :=
  match dotIndex orig with
  | none => none
  | some idx => some (orig.take idx ++ posfix ++ orig.drop idx)

/-- The loop of `add_image_illumination_col`: derive the illumination-corrected
filename of every row; the first filename without a `.` aborts the operation. -/
def addImageIlluminationCol (posfix : List Char) : List (List Char) → Option (List (List Char))
  | [] => some []
  | orig :: rest =>
    match insertPosfix posfix orig, addImageIlluminationCol posfix rest with
    | some name, some names => some (name :: names)
    | _, _ => none

theorem insertPosfix_cons_of_ne (posfix : List Char) {c : Char} (hc : ¬(c = '.'))
    (orig : List Char) :
    insertPosfix posfix (c :: orig) = (insertPosfix posfix orig).map (fun l => c :: l) := by
  have hidx : dotIndex (c :: orig) = (dotIndex orig).map (fun k => k + 1) := by
    simp only [dotIndex, if_neg hc]
  cases h : dotIndex orig with
  | none => simp [insertPosfix, hidx, h]
  | some idx => simp [insertPosfix, hidx, h, List.take_succ_cons, List.drop_succ_cons]

theorem insertPosfix_spec (posfix : List Char) (orig : List Char) :
    ('.' ∈ orig →
      ∃ stem ext, orig = stem ++ '.' :: ext ∧ '.' ∉ stem ∧
        insertPosfix posfix orig = some (stem ++ posfix ++ '.' :: ext)) ∧
    ('.' ∉ orig → insertPosfix posfix orig = none) := by
  induction orig with
  | nil => simp [insertPosfix, dotIndex]
  | cons c rest ih =>
    by_cases hc : c = '.'
    · subst hc
      refine ⟨fun _ => ⟨[], rest, rfl, by simp, ?_⟩, fun h => absurd (by simp) h⟩
      simp [insertPosfix, dotIndex]
    · constructor
      · intro hmem
        have hmem' : '.' ∈ rest := by
          rcases List.mem_cons.mp hmem with h | h
          · exact absurd h.symm hc
          · exact h
        obtain ⟨stem, ext, heq, hstem, hres⟩ := ih.1 hmem'
        refine ⟨c :: stem, ext, by simp [heq], ?_, ?_⟩
        · simp only [List.mem_cons, not_or]
          exact ⟨fun h => hc h.symm, hstem⟩
        · rw [insertPosfix_cons_of_ne posfix hc, hres]
          simp
      · intro hmem
        have hmem' : '.' ∉ rest := fun h => hmem (List.mem_cons_of_mem _ h)
        rw [insertPosfix_cons_of_ne posfix hc, ih.2 hmem']
        rfl

/-- C3: if every raw filename contains a `.`, the derivation succeeds and each
output filename is its input's stem (dot-free), then the inserted suffix, then
the unchanged extension starting at the first `.`; if some filename has no `.`,
the whole operation fails. -/
theorem addImageIlluminationCol_spec (posfix : List Char) (names : List (List Char)) :
    ((∀ n ∈ names, '.' ∈ n) →
      ∃ out, addImageIlluminationCol posfix names = some out ∧
        List.Forall₂ (fun (n m : List Char) => ∃ stem ext,
          n = stem ++ '.' :: ext ∧ '.' ∉ stem ∧ m = stem ++ posfix ++ '.' :: ext)
          names out) ∧
    ((∃ n ∈ names, '.' ∉ n) → addImageIlluminationCol posfix names = none) := by
  induction names with
  | nil => exact ⟨fun _ => ⟨[], rfl, List.Forall₂.nil⟩, by simp⟩
  | cons n rest ih =>
    constructor
    · intro hall
      have hn := hall n (List.mem_cons_self n rest)
      obtain ⟨stem, ext, heq, hstem, hres⟩ := (insertPosfix_spec posfix n).1 hn
      obtain ⟨out, hout, hfa⟩ := ih.1 (fun m hm => hall m (List.mem_cons_of_mem _ hm))
      refine ⟨(stem ++ posfix ++ '.' :: ext) :: out, ?_, ?_⟩
      · unfold addImageIlluminationCol
        rw [hres, hout]
      · exact List.Forall₂.cons ⟨stem, ext, heq, hstem, rfl⟩ hfa
    · rintro ⟨m, hm, hdot⟩
      rcases List.mem_cons.mp hm with h | h
      · subst h
        unfold addImageIlluminationCol
        rw [(insertPosfix_spec posfix m).2 hdot]
      · unfold addImageIlluminationCol
        rw [ih.2 ⟨m, h, hdot⟩]
        cases insertPosfix posfix n <;> rfl

/-- Witness for C3: inserting `_illum_corrected` into `a.tif` (via the general
theorem at that input) yields `a_illum_corrected.tif`. -/
theorem addImageIlluminationCol_spec_witness :
    ∃ out, addImageIlluminationCol "_illum_corrected".data ["a.tif".data] = some out ∧
      List.Forall₂ (fun (n m : List Char) => ∃ stem ext,
        n = stem ++ '.' :: ext ∧ '.' ∉ stem ∧
          m = stem ++ "_illum_corrected".data ++ '.' :: ext)
        ["a.tif".data] out :=
  (addImageIlluminationCol_spec "_illum_corrected".data ["a.tif".data]).1
    (by decide)

/-! ### `TorchNucleiImageDataset.__init__`: target-list filtering (`datasets.py` 48-53)

`if target_list is not None: if "EMPTY" not in target_list: target_list += ["EMPTY"];
metadata = metadata.loc[metadata[label_col].isin(target_list)]`.
Rows are tracked by their label strings, which is all this step inspects. -/

/-- The target list after the `"EMPTY"` append of lines 49-50. -/
def effectiveTargetList (target_list : List String) : List String :=
  if "EMPTY" ∈ target_list then target_list else target_list ++ ["EMPTY"]

/-- The `isin` row filter of lines 51-53 (`none` = `target_list is None`, no filter). -/
def filterTargets (target_list : Option (List String)) (labels : List String) :
    List String :=
  match target_list with
  | none => labels
  | some tl => labels.filter (fun l => decide (l ∈ effectiveTargetList tl))

/-- C5: with a target list, exactly the rows whose label is in the list or is
`"EMPTY"` are retained; in particular every `"EMPTY"` row survives. -/
theorem filterTargets_spec (tl : List String) (labels : List String) :
    filterTargets (some tl) labels =
      labels.filter (fun l => decide (l ∈ tl) || decide (l = "EMPTY")) ∧
    (filterTargets (some tl) labels).count "EMPTY" = labels.count "EMPTY" := by
  have h1 : filterTargets (some tl) labels =
      labels.filter (fun l => decide (l ∈ tl) || decide (l = "EMPTY")) := by
    show labels.filter _ = labels.filter _
    apply List.filter_congr
    intro l _
    by_cases hE : "EMPTY" ∈ tl
    · simp only [effectiveTargetList, if_pos hE]
      by_cases hl2 : l = "EMPTY"
      · subst hl2; simp [hE]
      · simp [hl2]
    · simp [effectiveTargetList, if_neg hE, List.mem_append]
  refine ⟨h1, ?_⟩
  rw [h1]
  exact List.count_filter (by simp)

/-! ### `TorchNucleiImageDataset.__init__`: control undersampling (`datasets.py` 54-66)

`target_n_samples = dict(Counter(labels)); target_n_samples["EMPTY"] = n_control_samples;
idc, _ = RandomUnderSampler(sampling_strategy=target_n_samples, random_state=1234)
  .fit_resample(idc, labels); metadata = metadata.iloc[idc]`. -/

/-- `dict(Counter(labels))`: one `(class, count)` binding per distinct label,
in first-occurrence order. -/
def counterDict (labels : List String) : List (String × ℕ) :=
  labels.dedup.map (fun c => (c, labels.count c))

/-- Python dict assignment `d[k] = v`: override an existing binding in place,
or append a new one. -/
def dictSet (d : List (String × ℕ)) (k : String) (v : ℕ) : List (String × ℕ) :=
  if d.any (fun p => decide (p.1 = k)) then
    d.map (fun p => if p.1 = k then (k, v) else p)
  else d ++ [(k, v)]

/-- Modelled from the spec: the undersampling library (imblearn's
`RandomUnderSampler` with a dict `sampling_strategy` and a fixed seed) keeps,
for each class key with requested count `m`, exactly `m` rows of that class;
it raises an error — propagated, not silently clamped — when a requested count
exceeds the rows available for that class. The seeded randomness only selects
which rows survive, never how many per class, so the model returns a list
realizing the requested per-class counts. -/
def randomUnderSample (strategy : List (String × ℕ)) (labels : List String) :
    Option (List String) :=
  if strategy.all (fun p => decide (p.2 ≤ labels.count p.1)) then
    some (strategy.flatMap (fun p => List.replicate p.2 p.1))
  else none

/-- The `n_control_samples` branch of the constructor (lines 54-66);
`none` skips the branch. -/
def underSampleControls (n_control_samples : Option ℕ) (labels : List String) :
    Option (List String) :=
  match n_control_samples with
  | none => some labels
  | some n => randomUnderSample (dictSet (counterDict labels) "EMPTY" n) labels

theorem count_flatMap_replicate (g : String → ℕ) (l : List String) (hl : l.Nodup)
    (c : String) :
    ((l.map (fun d => (d, g d))).flatMap (fun p => List.replicate p.2 p.1)).count c =
      if c ∈ l then g c else 0 := by
  induction l with
  | nil => simp
  | cons d l ih =>
    have hnd : d ∉ l := (List.nodup_cons.mp hl).1
    have hl' : l.Nodup := (List.nodup_cons.mp hl).2
    simp only [List.map_cons, List.flatMap_cons, List.count_append, ih hl',
      List.count_replicate, List.mem_cons]
    by_cases hc : c = d
    · subst hc
      simp [hnd]
    · simp [hc, Ne.symm hc, beq_iff_eq]

/-- C4: with `n_control_samples = n` and `"EMPTY"` present, the retained rows
have exactly `n` `"EMPTY"` labels while every other class keeps its full count;
if `n` exceeds the available `"EMPTY"` rows the construction fails (error
propagated, not clamped). -/
theorem underSampleControls_spec (n : ℕ) (labels : List String)
    (hmem : "EMPTY" ∈ labels) :
    (n ≤ labels.count "EMPTY" →
      ∃ out, underSampleControls (some n) labels = some out ∧
        out.count "EMPTY" = n ∧
        ∀ c, c ≠ "EMPTY" → out.count c = labels.count c) ∧
    (labels.count "EMPTY" < n → underSampleControls (some n) labels = none) := by
  have hdmem : "EMPTY" ∈ labels.dedup := List.mem_dedup.mpr hmem
  have hany : (counterDict labels).any (fun p => decide (p.1 = "EMPTY")) = true := by
    simp only [counterDict, List.any_eq_true, List.mem_map]
    exact ⟨("EMPTY", labels.count "EMPTY"), ⟨"EMPTY", hdmem, rfl⟩, by simp⟩
  have hstrat : dictSet (counterDict labels) "EMPTY" n =
      labels.dedup.map (fun c => (c, if c = "EMPTY" then n else labels.count c)) := by
    rw [dictSet, if_pos hany, counterDict, List.map_map]
    apply List.map_congr_left
    intro c _
    by_cases hc : c = "EMPTY"
    · subst hc; simp
    · simp [hc]
  have hall : (dictSet (counterDict labels) "EMPTY" n).all
      (fun p => decide (p.2 ≤ labels.count p.1)) = true ↔ n ≤ labels.count "EMPTY" := by
    rw [hstrat]
    simp only [List.all_eq_true, List.mem_map, decide_eq_true_eq]
    constructor
    · intro h
      have := h ("EMPTY", n) ⟨"EMPTY", hdmem, by simp⟩
      simpa using this
    · rintro hn ⟨c, m⟩ ⟨d, _, hd⟩
      obtain ⟨rfl, rfl⟩ := Prod.mk.injEq .. ▸ hd
      by_cases hc : d = "EMPTY"
      · subst hc; simpa using hn
      · simp [hc]
  constructor
  · intro hn
    refine ⟨(dictSet (counterDict labels) "EMPTY" n).flatMap
        (fun p => List.replicate p.2 p.1), ?_, ?_, ?_⟩
    · rw [underSampleControls, randomUnderSample, if_pos (hall.mpr hn)]
    · rw [hstrat, count_flatMap_replicate _ _ labels.nodup_dedup]
      simp [hdmem]
    · intro c hc
      rw [hstrat, count_flatMap_replicate _ _ labels.nodup_dedup]
      by_cases hcd : c ∈ labels.dedup
      · simp [hcd, hc]
      · have : c ∉ labels := fun h => hcd (List.mem_dedup.mpr h)
        simp [hcd, List.count_eq_zero.mpr this]
  · intro hn
    rw [underSampleControls, randomUnderSample,
      if_neg (by rw [hall]; exact Nat.not_le.mpr hn)]

/-- Witness for C4 at the spec's example: labels `{EMPTY: 100, A: 20, B: 5}` with
`n_control_samples = 10` yield exactly `{EMPTY: 10, A: 20, B: 5}`. -/
theorem underSampleControls_spec_witness :
    ∃ out,
      underSampleControls (some 10)
        (List.replicate 100 "EMPTY" ++ List.replicate 20 "A" ++ List.replicate 5 "B") =
        some out ∧
      out.count "EMPTY" = 10 ∧ out.count "A" = 20 ∧ out.count "B" = 5 := by
  have hmem : "EMPTY" ∈ List.replicate 100 "EMPTY" ++ List.replicate 20 "A" ++
      List.replicate 5 "B" :=
    List.mem_append_left _
      (List.mem_append_left _ (List.mem_replicate.mpr ⟨by norm_num, rfl⟩))
  have hcE : (List.replicate 100 "EMPTY" ++ List.replicate 20 "A" ++
      List.replicate 5 "B").count "EMPTY" = 100 := by
    rw [List.count_append, List.count_append, List.count_replicate_self,
      List.count_replicate, List.count_replicate]
    simp
  have hcA : (List.replicate 100 "EMPTY" ++ List.replicate 20 "A" ++
      List.replicate 5 "B").count "A" = 20 := by
    rw [List.count_append, List.count_append, List.count_replicate_self,
      List.count_replicate, List.count_replicate]
    simp
  have hcB : (List.replicate 100 "EMPTY" ++ List.replicate 20 "A" ++
      List.replicate 5 "B").count "B" = 5 := by
    rw [List.count_append, List.count_append, List.count_replicate_self,
      List.count_replicate, List.count_replicate]
    simp
  obtain ⟨out, hout, hE, hrest⟩ :=
    (underSampleControls_spec 10 _ hmem).1 (by rw [hcE]; norm_num)
  exact ⟨out, hout, hE, by rw [hrest "A" (by simp), hcA],
    by rw [hrest "B" (by simp), hcB]⟩

/-! ### Label encoding (`datasets.py` 83-87)

`self.labels = np.array(metadata[label_col]); le = LabelEncoder().fit(labels);
self.labels = le.transform(labels)` — run after the target-list filter and the
control undersampling, so the encoder is fit from the finally retained labels. -/

/-- The labels the constructor retains before fitting the encoder: the
target-list filter (lines 48-53) followed by control undersampling (54-66). -/
def retainedLabels (target_list : Option (List String)) (n_control_samples : Option ℕ)
    (labels : List String) : Option (List String) :=
  underSampleControls n_control_samples (filterTargets target_list labels)

/-- Lexicographic code-point order on character lists (the order numpy uses to
sort unicode strings). -/
def charListLe : List Char → List Char → Bool
  | [], _ => true
  | _ :: _, [] => false
  | a :: as, b :: bs => if a < b then true else if b < a then false else charListLe as bs

/-- Lexicographic code-point order on strings. -/
def strLe (a b : String) : Bool := charListLe a.data b.data

/-- Insert a string into a sorted list (helper for the sorted class vector). -/
def insertSorted (a : String) : List String → List String
  | [] => [a]
  | b :: l => if strLe a b then a :: b :: l else b :: insertSorted a l

/-- Insertion sort on strings (models `np.unique`'s sorting). -/
def sortStrings : List String → List String
  | [] => []
  | a :: l => insertSorted a (sortStrings l)

/-- Modelled from the spec: sklearn's `LabelEncoder` (external library) fits
`classes_` as the sorted distinct observed labels. -/
def leClasses (labels : List String) : List String := sortStrings labels.dedup

/-- Modelled from the spec: `LabelEncoder.transform` maps a label to its index
in `classes_`. -/
def leTransform (labels : List String) (l : String) : ℕ :=
  (leClasses labels).findIdx (fun c => c == l)

/-- Modelled from the spec: `LabelEncoder.inverse_transform` maps a dense
integer back to the class string at that index of `classes_`. -/
def leInverse (labels : List String) (i : ℕ) : Option String :=
  (leClasses labels)[i]?

theorem insertSorted_perm (a : String) (l : List String) :
    (insertSorted a l).Perm (a :: l) := by
  induction l with
  | nil => exact List.Perm.refl _
  | cons b l ih =>
    by_cases h : strLe a b
    · rw [insertSorted, if_pos h]
    · rw [insertSorted, if_neg h]
      exact (List.Perm.cons b ih).trans (List.Perm.swap a b l)

theorem sortStrings_perm (l : List String) : (sortStrings l).Perm l := by
  induction l with
  | nil => exact List.Perm.refl _
  | cons a l ih => exact (insertSorted_perm a (sortStrings l)).trans (ih.cons a)

theorem mem_leClasses {labels : List String} {l : String} :
    l ∈ leClasses labels ↔ l ∈ labels := by
  rw [leClasses, (sortStrings_perm labels.dedup).mem_iff, List.mem_dedup]

theorem leClasses_nodup (labels : List String) : (leClasses labels).Nodup :=
  ((sortStrings_perm labels.dedup).nodup_iff).mpr labels.nodup_dedup

theorem findIdx_beq_getElem? {cls : List String} {l : String} (h : l ∈ cls) :
    cls[cls.findIdx (fun c => c == l)]? = some l := by
  induction cls with
  | nil => cases h
  | cons b cls ih =>
    by_cases hb : b = l
    · subst hb
      simp [List.findIdx_cons]
    · have hl : l ∈ cls := by
        rcases List.mem_cons.mp h with h' | h'
        · exact absurd h'.symm hb
        · exact h'
      have hbeq : (b == l) = false := beq_eq_false_iff_ne.mpr hb
      rw [List.findIdx_cons]
      simp only [hbeq, cond_false]
      simpa using ih hl

theorem findIdx_beq_getElem {cls : List String} (hnd : cls.Nodup) (i : ℕ)
    (hi : i < cls.length) :
    cls.findIdx (fun c => c == cls[i]) = i := by
  induction cls generalizing i with
  | nil => cases hi
  | cons b cls ih =>
    cases i with
    | zero =>
      simp only [List.getElem_cons_zero, List.findIdx_cons, beq_self_eq_true, cond_true]
    | succ j =>
      have hj : j < cls.length := Nat.lt_of_succ_lt_succ hi
      have hbne : (b == cls[j]) = false := by
        refine beq_eq_false_iff_ne.mpr ?_
        intro hmem
        exact (List.nodup_cons.mp hnd).1 (hmem ▸ List.getElem_mem hj)
      simp only [List.getElem_cons_succ, List.findIdx_cons, hbne, cond_false]
      rw [ih (List.nodup_cons.mp hnd).2 j hj]

/-- C7: the encoding fit from the finally retained labels (post-filter,
post-undersampling) is a bijection between the distinct observed labels and the
dense range of class indices: decode ∘ encode recovers every observed label,
encode is injective on observed labels and lands below the class count, every
class index decodes to an observed label that encodes back to it; and at a
concrete input, changing `target_list` changes the integer-to-class mapping. -/
theorem labelEncoder_bijection (target_list : Option (List String))
    (n_control_samples : Option ℕ) (labels retained : List String)
    (_hret : retainedLabels target_list n_control_samples labels = some retained) :
    (∀ l ∈ retained, leInverse retained (leTransform retained l) = some l) ∧
    (∀ l1 ∈ retained, ∀ l2 ∈ retained,
      leTransform retained l1 = leTransform retained l2 → l1 = l2) ∧
    (∀ l ∈ retained, leTransform retained l < (leClasses retained).length) ∧
    (∀ i, i < (leClasses retained).length →
      ∃ l, leInverse retained i = some l ∧ l ∈ retained ∧ leTransform retained l = i) ∧
    (retainedLabels (some ["A"]) none ["B", "A", "EMPTY"] ≠
        retainedLabels (some ["A", "B"]) none ["B", "A", "EMPTY"] ∧
      leTransform ["A", "EMPTY"] "EMPTY" ≠ leTransform ["B", "A", "EMPTY"] "EMPTY") := by
  have hrt : ∀ l ∈ retained, leInverse retained (leTransform retained l) = some l := by
    intro l hl
    exact findIdx_beq_getElem? (mem_leClasses.mpr hl)
  refine ⟨hrt, ?_, ?_, ?_, ?_⟩
  · intro l1 h1 l2 h2 heq
    have := hrt l1 h1
    rw [heq, hrt l2 h2] at this
    exact (Option.some.injEq _ _ ▸ this).symm
  · intro l hl
    obtain ⟨h, -⟩ := List.getElem?_eq_some_iff.mp (hrt l hl)
    exact h
  · intro i hi
    refine ⟨(leClasses retained)[i], ?_, ?_, ?_⟩
    · simp [leInverse, List.getElem?_eq_some_iff, hi]
    · exact mem_leClasses.mp (List.getElem_mem hi)
    · exact findIdx_beq_getElem (leClasses_nodup retained) i hi
  · exact ⟨by decide, by decide⟩

/-- Witness for C7: with no filtering configured the retained labels are the
metadata labels themselves, and decoding the encoding of `"A"` recovers `"A"`. -/
theorem labelEncoder_bijection_witness :
    leInverse ["A", "EMPTY"] (leTransform ["A", "EMPTY"] "A") = some "A" :=
  (labelEncoder_bijection none none ["A", "EMPTY"] ["A", "EMPTY"] rfl).1 "A"
    (by decide)

/-! ### Transform-pipeline delegation (`datasets.py` 94-141)

`TorchTransformableSubset.set_transform_pipeline` calls
`self.dataset.set_transform_pipeline(...)` on the shared backing dataset (its
own `transform_pipeline` assignment is commented out), and raises the caught
`AttributeError` when the backing object has no such method. Python object
references are modelled by passing the shared backing state explicitly. -/

/-- The stored transform pipeline: `set_transform_pipeline(None)` installs
`transforms.Compose([transforms.ToTensor()])`, otherwise the given pipeline. -/
inductive PipelineState (P : Type) where
  | defaultToTensor
  | custom (p : P)
deriving DecidableEq

/-- The state of a `TorchNucleiImageDataset` relevant to sample access. -/
structure NucleiDataset (P : Type) where
  image_locs : List String
  labels : List ℕ
  transform_pipeline : PipelineState P
  pseudo_rgb : Bool

/-- `TorchNucleiImageDataset.set_transform_pipeline` (lines 102-108). -/
def NucleiDataset.set_transform_pipeline {P : Type} (d : NucleiDataset P)
    (tp : Option P) : NucleiDataset P :=
  match tp with
  | none => { d with transform_pipeline := PipelineState.defaultToTensor }
  | some p => { d with transform_pipeline := PipelineState.custom p }

/-- The object a subset view is built over: a dataset implementing
`set_transform_pipeline`, or one without it (attribute lookup raises). -/
inductive Backing (P : Type) where
  | nuclei (d : NucleiDataset P)
  | withoutSetter (image_locs : List String)

/-- A `TorchTransformableSubset` view: its index list and its own
`transform_pipeline` attribute, which `__init__` sets to `None` and which is
never assigned afterwards. -/
structure TransformableSubset (P : Type) where
  indices : List ℕ
  transform_pipeline : Option P

/-- `TorchTransformableSubset.set_transform_pipeline` (lines 130-140): delegate
to the shared backing dataset, leaving the view itself untouched;
`AttributeError` propagates when the backing has no `set_transform_pipeline`. -/
def TransformableSubset.set_transform_pipeline {P : Type}
    (s : TransformableSubset P) (b : Backing P) (tp : P) :
    Except String (TransformableSubset P × Backing P) :=
  match b with
  | Backing.nuclei d =>
      Except.ok (s, Backing.nuclei (d.set_transform_pipeline (some tp)))
  | Backing.withoutSetter _ => Except.error "AttributeError"

/-- A sample returned by `__getitem__`: `{"id": ..., "image": ..., "label": ...}`. -/
structure Sample (Img : Type) where
  id : String
  image : Img
  label : ℕ

/-- Apply the stored pipeline to an image; the default pipeline is the external
`ToTensor` transform, passed in as an oracle. -/
def PipelineState.apply {Img : Type} (toTensor : Img → Img) :
    PipelineState (Img → Img) → Img → Img
  | PipelineState.defaultToTensor, x => toTensor x
  | PipelineState.custom f, x => f x

/-- `TorchNucleiImageDataset.__getitem__` with `process_image` (lines 94-122):
read the image (`imread` is the oracle `readImage`), optionally convert to
pseudo-RGB, then apply the stored transform pipeline. -/
def NucleiDataset.getitem {Img : Type} (readImage : String → Img)
    (toTensor pseudoRGB : Img → Img) (d : NucleiDataset (Img → Img)) (idx : ℕ) :
    Option (Sample Img) :=
  match d.image_locs[idx]?, d.labels[idx]? with
  | some loc, some lab =>
      some { id := loc,
             image := d.transform_pipeline.apply toTensor
               (if d.pseudo_rgb then pseudoRGB (readImage loc) else readImage loc),
             label := lab }
  | _, _ => none

/-- `torch.utils.data.Subset.__getitem__`: `self.dataset[self.indices[idx]]`. -/
def TransformableSubset.getitem {Img : Type} (readImage : String → Img)
    (toTensor pseudoRGB : Img → Img) (s : TransformableSubset (Img → Img))
    (b : Backing (Img → Img)) (idx : ℕ) : Option (Sample Img) :=
  match b with
  | Backing.nuclei d =>
      match s.indices[idx]? with
      | some j => d.getitem readImage toTensor pseudoRGB j
      | none => none
  | Backing.withoutSetter _ => none

/-- C6: setting a pipeline through one subset view rewrites the shared backing
dataset's pipeline while returning the view itself unchanged (its own
`transform_pipeline` attribute is not updated); afterwards reading any sample
through a different view over the same backing applies the new pipeline; on a
backing without `set_transform_pipeline` the call signals an error. -/
theorem subset_set_transform_pipeline_shared {Img : Type}
    (readImage : String → Img) (toTensor pseudoRGB : Img → Img)
    (s1 s2 : TransformableSubset (Img → Img)) (d : NucleiDataset (Img → Img))
    (f : Img → Img) :
    (TransformableSubset.set_transform_pipeline s1 (Backing.nuclei d) f =
      Except.ok (s1,
        Backing.nuclei { d with transform_pipeline := PipelineState.custom f }) ∧
     ∀ idx j loc lab, s2.indices[idx]? = some j →
       d.image_locs[j]? = some loc → d.labels[j]? = some lab →
       TransformableSubset.getitem readImage toTensor pseudoRGB s2
         (Backing.nuclei { d with transform_pipeline := PipelineState.custom f }) idx =
         some { id := loc,
                image := f (if d.pseudo_rgb then pseudoRGB (readImage loc)
                  else readImage loc),
                label := lab }) ∧
    ∀ locs, TransformableSubset.set_transform_pipeline s1
      (Backing.withoutSetter locs) f = Except.error "AttributeError" := by
  refine ⟨⟨rfl, ?_⟩, fun locs => rfl⟩
  intro idx j loc lab hj hloc hlab
  simp only [TransformableSubset.getitem, NucleiDataset.getitem, hj, hloc, hlab]
  rfl

/-- Witness for C6: over a concrete shared backing (one image, label 3, reader
returning 7), setting `fun n => n + 1` through one view makes a read through a
second view produce image `8` under the new pipeline. -/
theorem subset_set_transform_pipeline_shared_witness :
    TransformableSubset.getitem (fun _ => (7 : ℕ)) id id ⟨[0], none⟩
      (Backing.nuclei ⟨["p/f.tif"], [3], PipelineState.custom (fun n => n + 1), false⟩)
      0 = some ⟨"p/f.tif", 8, 3⟩ :=
  (subset_set_transform_pipeline_shared (fun _ => (7 : ℕ)) id id ⟨[], none⟩ ⟨[0], none⟩
      ⟨["p/f.tif"], [3], PipelineState.defaultToTensor, false⟩
      (fun n => n + 1)).1.2 0 0 "p/f.tif" 3 rfl rfl rfl

/-! ### Padded-image normalization (`save_padded_images`, lines 264-288)

Each crop is padded, then `(p - p.min()) / (p.max() - p.min())`, `np.clip(_, 0, 1)`
and `(_ * 255).astype(np.uint8)`. Images are modelled by their pixel value
lists (uint16 intensities as `ℕ`); the float arithmetic is modelled over `ℚ`,
`astype(np.uint8)` as truncation. -/

/-- `np.min` of the pixel values (a padded crop is never empty; the empty case
is mapped to 0). -/
def npMin : List ℕ → ℕ
  | [] => 0
  | v :: vs => vs.foldr min v

/-- `np.max` of the pixel values. -/
def npMax : List ℕ → ℕ
  | [] => 0
  | v :: vs => vs.foldr max v

/-- Modelled from the spec: `pad_image` (from `src.utils.basic.segmentation`,
not under `src/`) places the crop inside a zero-background canvas of
`target_size`, so the output's pixels are the crop's pixels plus zero
background pixels. -/
def pad_image (image : List ℕ) (target_size : ℕ × ℕ) : List ℕ :=
  image ++ List.replicate (target_size.1 * target_size.2 - image.length) 0

/-- `np.clip(x, 0, 1)`. -/
def clip01 (x : ℚ) : ℚ := max 0 (min 1 x)

/-- Lines 283-287: rescale by the image's own min and max, clip to `[0, 1]`,
multiply by 255 and truncate to the 8-bit integers. -/
def normalizeQuantize (pixels : List ℕ) : List ℕ :=
  pixels.map (fun v : ℕ =>
    (⌊clip01 (((v : ℚ) - (npMin pixels : ℚ)) /
      ((npMax pixels : ℚ) - (npMin pixels : ℚ))) * 255⌋).toNat)

/-- The per-file loop of `save_padded_images`: every file is padded and
normalized independently of all other files. -/
def savePaddedImages (target_size : ℕ × ℕ) (files : List (List ℕ)) :
    List (List ℕ) :=
  files.map (fun image => normalizeQuantize (pad_image image target_size))

/-- C8: the output written for image `i` is a function of that image alone
(padding then per-image normalization), every output pixel lies in `[0, 255]`,
and with the image's own min and max distinct, a minimal pixel maps to 0 and
a maximal one to 255 — the rescaling anchors are per-image, not global. -/
theorem savePaddedImages_per_image (target_size : ℕ × ℕ) (files : List (List ℕ)) :
    (∀ i (h : i < files.length),
      (savePaddedImages target_size files)[i]? =
        some (normalizeQuantize (pad_image files[i] target_size))) ∧
    (∀ pixels : List ℕ, ∀ w ∈ normalizeQuantize pixels, w ≤ 255) ∧
    (∀ (pixels : List ℕ) (i v : ℕ), npMin pixels < npMax pixels →
      pixels[i]? = some v →
        (v = npMin pixels → (normalizeQuantize pixels)[i]? = some 0) ∧
        (v = npMax pixels → (normalizeQuantize pixels)[i]? = some 255)) := by
  refine ⟨?_, ?_, ?_⟩
  · intro i h
    simp [savePaddedImages, List.getElem?_eq_some_iff, h]
  · intro pixels w hw
    simp only [normalizeQuantize, List.mem_map] at hw
    obtain ⟨v, -, rfl⟩ := hw
    have hle : clip01 (((v : ℚ) - (npMin pixels : ℚ)) /
        ((npMax pixels : ℚ) - (npMin pixels : ℚ))) ≤ 1 :=
      max_le (by norm_num) (min_le_left _ _)
    have h255 : clip01 (((v : ℚ) - (npMin pixels : ℚ)) /
        ((npMax pixels : ℚ) - (npMin pixels : ℚ))) * 255 ≤ 255 := by
      nlinarith
    calc (⌊clip01 (((v : ℚ) - (npMin pixels : ℚ)) /
            ((npMax pixels : ℚ) - (npMin pixels : ℚ))) * 255⌋).toNat
        ≤ (⌊(255 : ℚ)⌋).toNat := by
          exact Int.toNat_le_toNat (Int.floor_le_floor h255)
      _ = (255 : ℤ).toNat := by norm_num
      _ = 255 := rfl
  · intro pixels i v hlt hv
    have hmap : (normalizeQuantize pixels)[i]? =
        some ((⌊clip01 (((v : ℚ) - (npMin pixels : ℚ)) /
          ((npMax pixels : ℚ) - (npMin pixels : ℚ))) * 255⌋).toNat) := by
      rw [normalizeQuantize, List.getElem?_map, hv]
      rfl
    have hc0 : clip01 0 = 0 := by norm_num [clip01]
    have hc1 : clip01 1 = 1 := by norm_num [clip01]
    constructor
    · intro hveq
      rw [hmap, hveq, sub_self, zero_div, hc0, zero_mul, Int.floor_zero]
      rfl
    · intro hveq
      rw [hmap, hveq]
      have hne : (npMax pixels : ℚ) - (npMin pixels : ℚ) ≠ 0 := by
        have : (npMin pixels : ℚ) < (npMax pixels : ℚ) := by exact_mod_cast hlt
        linarith
      have hf : (⌊(255 : ℚ)⌋ : ℤ) = 255 := by norm_num
      rw [div_self hne, hc1, one_mul, hf]
      rfl

/-- Witness for C8: for the single padded file `[5, 10]` (pad target 2 × 1,
no background to add), the output is computed from that file alone; its
minimum pixel 5 maps to 0 and its maximum pixel 10 maps to 255. -/
theorem savePaddedImages_per_image_witness :
    (savePaddedImages (2, 1) [[5, 10]])[0]? =
      some (normalizeQuantize (pad_image [5, 10] (2, 1))) ∧
    (normalizeQuantize [5, 10])[0]? = some 0 ∧
    (normalizeQuantize [5, 10])[1]? = some 255 :=
  ⟨(savePaddedImages_per_image (2, 1) [[5, 10]]).1 0 (by decide),
   ((savePaddedImages_per_image (2, 1) [[5, 10]]).2.2 [5, 10] 0 5
      (by decide) rfl).1 (by decide),
   ((savePaddedImages_per_image (2, 1) [[5, 10]]).2.2 [5, 10] 1 10
      (by decide) rfl).2 (by decide)⟩

/-! ### Image path construction and the alignment check (`datasets.py` 69-82) -/

/-- The metadata fields consumed by path construction: the row's plate and the
row's (crop) filename. -/
structure MetadataRow where
  plate : String
  image_file : String
deriving Repr, DecidableEq

/-- Modelled from the spec: `combine_path` (from `src.utils.basic.general`, not
under `src/`) joins its path components into one path. -/
def combine_path (components : List String) : String :=
  String.intercalate "/" components

/-- Lines 69-77: `image_locs` is built by applying `combine_path` columnwise to
`[repeat(image_dir, len(metadata)), metadata[plate_col], metadata[file_col]]`,
i.e. one joined `(image_dir, plate, filename)` path per metadata row. -/
def buildImageLocs (image_dir : String) (metadata : List MetadataRow) :
    List String :=
  metadata.map (fun row => combine_path [image_dir, row.plate, row.image_file])

/-- Lines 79-82: `if len(self.metadata) != len(self.image_locs):
raise RuntimeError("Number of image samples does not match the given metadata.")`. -/
def checkSampleCount (metadata : List MetadataRow) (image_locs : List String) :
    Except String Unit :=
  if metadata.length ≠ image_locs.length then
    Except.error "Number of image samples does not match the given metadata."
  else Except.ok ()

/-- The path-construction stage of `TorchNucleiImageDataset.__init__`: build
the locations, run the alignment check, then expose the locations. -/
def constructImageLocs (image_dir : String) (metadata : List MetadataRow) :
    Except String (List String) :=
  match checkSampleCount metadata (buildImageLocs image_dir metadata) with
  | Except.error e => Except.error e
  | Except.ok _ => Except.ok (buildImageLocs image_dir metadata)

/-- C9: one path is built per metadata row by joining image root, plate and
filename, and the constructor's check raises the `RuntimeError` whenever the
row count differs from the path count. -/
theorem constructImageLocs_check (image_dir : String) (metadata : List MetadataRow) :
    ((buildImageLocs image_dir metadata).length = metadata.length ∧
     ∀ i (h : i < metadata.length),
       (buildImageLocs image_dir metadata)[i]? =
         some (combine_path [image_dir, metadata[i].plate, metadata[i].image_file])) ∧
    ∀ (md : List MetadataRow) (locs : List String), md.length ≠ locs.length →
      checkSampleCount md locs =
        Except.error "Number of image samples does not match the given metadata." := by
  refine ⟨⟨by simp [buildImageLocs], ?_⟩, ?_⟩
  · intro i h
    simp [buildImageLocs, List.getElem?_eq_some_iff, h]
  · intro md locs hne
    rw [checkSampleCount, if_pos hne]

/-- Witness for C9: the check applied to an empty metadata table against one
path raises the `RuntimeError`, via `constructImageLocs_check`. -/
theorem constructImageLocs_check_witness :
    checkSampleCount [] ["x"] =
      Except.error "Number of image samples does not match the given metadata." :=
  (constructImageLocs_check "root" []).2 [] ["x"] (by decide)

/-- C10: the mismatch branch is unreachable — `image_locs` holds exactly one
joined path per metadata row, so the constructor's path stage succeeds for
every metadata table (file existence is never consulted). -/
theorem constructImageLocs_never_fails (image_dir : String)
    (metadata : List MetadataRow) :
    constructImageLocs image_dir metadata =
      Except.ok (buildImageLocs image_dir metadata) ∧
    (buildImageLocs image_dir metadata).length = metadata.length := by
  have hlen : (buildImageLocs image_dir metadata).length = metadata.length := by
    simp [buildImageLocs]
  refine ⟨?_, hlen⟩
  rw [constructImageLocs, checkSampleCount, if_neg (by rw [hlen]; exact fun h => h rfl)]

end Image2Reg
